import Mathlib

/-!
# Verification of the `isplaintextfile` plaintext classifier

A shallow embedding of the Go package `isplaintextfile` and proofs about it.
Bytes are modelled as `Nat` (the Go code only ever reads byte values `0..255`;
values `≥ 0x80` that are not valid continuation/leading bytes are rejected by
the validator exactly as in Go, so no side condition is needed).

The Go code uses `unicode/utf8.Valid` and `unicode/utf8.DecodeRune` from the
Go standard library; `utf8Valid` and `decodeRune` below embed their semantics
(the `first` table of leading-byte classes and the `acceptRanges` table of
second-byte ranges are inlined into `utf8First`).
-/

namespace IsPlaintextFile

/-- Go `unicode/utf8`'s `first`/`acceptRanges` tables for a non-ASCII leading
byte: `some (size, lo, hi)` gives the total encoded size and the admissible
range of the second byte; `none` marks an invalid leading byte.  ASCII bytes
(`< 0x80`) are handled directly at each call site, as in Go. -/
def utf8First (b : Nat) : Option (Nat × Nat × Nat) :=
  if b < 0xC2 then none
  else if b ≤ 0xDF then some (2, 0x80, 0xBF)
  else if b = 0xE0 then some (3, 0xA0, 0xBF)
  else if b = 0xED then some (3, 0x80, 0x9F)
  else if b ≤ 0xEF then some (3, 0x80, 0xBF)
  else if b = 0xF0 then some (4, 0x90, 0xBF)
  else if b ≤ 0xF3 then some (4, 0x80, 0xBF)
  else if b = 0xF4 then some (4, 0x80, 0x8F)
  else none

/-- Embeds Go `unicode/utf8.Valid`: the byte list is a concatenation of
well-formed UTF-8 sequences (no truncated or invalid multi-byte sequences,
no overlong forms, no surrogates, nothing above U+10FFFF). -/
def utf8Valid : List Nat → Bool
  | [] => true
  | b0 :: rest =>
    if b0 < 0x80 then utf8Valid rest
    else
      match utf8First b0 with
      | none => false
      | some (sz, lo, hi) =>
        if sz = 2 then
          match rest with
          | b1 :: r => decide (lo ≤ b1) && decide (b1 ≤ hi) && utf8Valid r
          | _ => false
        else if sz = 3 then
          match rest with
          | b1 :: b2 :: r =>
            decide (lo ≤ b1) && decide (b1 ≤ hi) &&
            decide (0x80 ≤ b2) && decide (b2 ≤ 0xBF) && utf8Valid r
          | _ => false
        else
          match rest with
          | b1 :: b2 :: b3 :: r =>
            decide (lo ≤ b1) && decide (b1 ≤ hi) &&
            decide (0x80 ≤ b2) && decide (b2 ≤ 0xBF) &&
            decide (0x80 ≤ b3) && decide (b3 ≤ 0xBF) && utf8Valid r
          | _ => false

/-- Embeds Go `unicode/utf8.DecodeRune`: returns the first decoded code point
and the number of bytes it occupies; on empty input `(RuneError, 0)`, on an
invalid sequence `(RuneError, 1)` where `RuneError = 0xFFFD`. -/
def decodeRune : List Nat → Nat × Nat
  | [] => (0xFFFD, 0)
  | b0 :: rest =>
    if b0 < 0x80 then (b0, 1)
    else
      match utf8First b0 with
      | none => (0xFFFD, 1)
      | some (sz, lo, hi) =>
        match rest with
        | [] => (0xFFFD, 1)
        | b1 :: rest2 =>
          if b1 < lo || hi < b1 then (0xFFFD, 1)
          else if sz = 2 then (b0 % 32 * 64 + b1 % 64, 2)
          else
            match rest2 with
            | [] => (0xFFFD, 1)
            | b2 :: rest3 =>
              if b2 < 0x80 || 0xBF < b2 then (0xFFFD, 1)
              else if sz = 3 then (b0 % 16 * 4096 + b1 % 64 * 64 + b2 % 64, 3)
              else
                match rest3 with
                | [] => (0xFFFD, 1)
                | b3 :: _ =>
                  if b3 < 0x80 || 0xBF < b3 then (0xFFFD, 1)
                  else (b0 % 8 * 262144 + b1 % 64 * 4096 + b2 % 64 * 64 + b3 % 64, 4)

/-- The scanning loop of `isBufferPlaintext`: decode code point by code point
(`pos += size` is `List.drop size`) and fail on any control character other
than `\n`, `\r`, `\t`.  The Go `for pos < len(buffer)` loop runs at most
`len(buffer)` iterations because every decode consumes at least one byte
(`decodeRune_snd_pos`); `fuel` is exactly that loop variant, so the `fuel = 0`
branch is unreachable from `plLoop` (see `plLoop_cons_drop`). -/
def plLoopAux : Nat → List Nat → Bool
  | _, [] => true
  | 0, _ :: _ => true
  | fuel + 1, b0 :: rest =>
    let d := decodeRune (b0 :: rest)
    if d.1 < 32 && !(d.1 = 10) && !(d.1 = 13) && !(d.1 = 9) then false
    else plLoopAux fuel ((b0 :: rest).drop d.2)

/-- The `for pos < len(buffer)` scan of `isBufferPlaintext`. -/
def plLoop (buffer : List Nat) : Bool := plLoopAux buffer.length buffer

/-- Embeds `isBufferPlaintext` from `isplaintextfile.go`: valid UTF-8 and no
control characters except newline, carriage return, horizontal tab. -/
def isBufferPlaintext (buffer : List Nat) : Bool :=
  if !utf8Valid buffer then false
  else plLoop buffer

/-- Spec side: a Unicode scalar value — any code point up to U+10FFFF that is
not a surrogate.  These are exactly the code points the universal multi-byte
text encoding (UTF-8) can encode. -/
def ScalarValue (c : Nat) : Prop := c ≤ 0x10FFFF ∧ ¬(0xD800 ≤ c ∧ c ≤ 0xDFFF)

instance (c : Nat) : Decidable (ScalarValue c) := by unfold ScalarValue; infer_instance

/-- Spec side: the unique UTF-8 encoding of a scalar value, by the standard
1/2/3/4-byte layout. -/
def encodeUtf8 (c : Nat) : List Nat :=
  if c < 0x80 then [c]
  else if c < 0x800 then [0xC0 + c / 64, 0x80 + c % 64]
  else if c < 0x10000 then [0xE0 + c / 4096, 0x80 + c / 64 % 64, 0x80 + c % 64]
  else [0xF0 + c / 262144, 0x80 + c / 4096 % 64, 0x80 + c / 64 % 64, 0x80 + c % 64]

/-- Spec side: `IsUtf8 bs rs` — the byte sequence `bs` is the valid UTF-8
encoding of the code-point sequence `rs` ("every byte sequence decodes to a
valid code point; no truncated/invalid multi-byte sequences"). -/
inductive IsUtf8 : List Nat → List Nat → Prop where
  | nil : IsUtf8 [] []
  | cons (c : Nat) (bs rs : List Nat) : ScalarValue c → IsUtf8 bs rs →
      IsUtf8 (encodeUtf8 c ++ bs) (c :: rs)

/-- Spec side: a code point admissible in plaintext — at least 32, or one of
newline, carriage return, horizontal tab. -/
def runeOK (r : Nat) : Prop := 32 ≤ r ∨ r = 10 ∨ r = 13 ∨ r = 9

instance (r : Nat) : Decidable (runeOK r) := by unfold runeOK; infer_instance

/-- Model of a Go `io.Reader` as observed by the accumulation loop of
`isPlaintextFromReader`: the chunks of bytes returned by successive
successful `Read` calls, followed by one final event — clean end of data
(`none`, i.e. `io.EOF`) or a read failure identified by an error code
(`some e`).  A final chunk returned together with `io.EOF` in one call is
modelled as that chunk followed by the `none` terminal (the loop appends
the bytes and then breaks, as Go does); bytes returned together with a
non-EOF error need not be modelled because the loop then discards the
buffer and returns the error. -/
structure GoStream where
  chunks : List (List Nat)
  terminal : Option Nat

/-- The bytes a stream delivers before its final event. -/
def content (s : GoStream) : List Nat := s.chunks.flatten

/-- Errors surfaced by the package: a propagated I/O (read or open) error,
or the `"invalid length: maxKB must be greater than 0"` error. -/
inductive GoError where
  | ioErr (code : Nat)
  | invalidLength
deriving DecidableEq

/-- The accumulation loop of `isPlaintextFromReader`: append each chunk to
the buffer (`buffer = append(buffer, tempBuf[:n]...)`); at the final event
report the accumulated buffer together with the terminal. -/
def readLoop : List (List Nat) → Option Nat → List Nat → List Nat × Option Nat
  | [], term, acc => (acc, term)
  | chunk :: rest, term, acc => readLoop rest term (acc ++ chunk)

/-- Embeds `isPlaintextFromReader`: accumulate, propagate a non-EOF error
as `(false, err)`, return `(true, nil)` for an empty buffer, otherwise
classify the buffer. -/
def isPlaintextFromReader (s : GoStream) : Bool × Option GoError :=
  match readLoop s.chunks s.terminal [] with
  | (_, some e) => (false, some (GoError.ioErr e))
  | (buffer, none) =>
    if buffer.isEmpty then (true, none)
    else (isBufferPlaintext buffer, none)

/-- Embeds `Bytes`: in-memory data, never an error. -/
def Bytes (data : List Nat) : Bool × Option GoError :=
  (isBufferPlaintext data, none)

/-- Result of `os.Open` for a path: failure with an error code, or success
with a handle whose contents read as the given stream. -/
inductive OpenResult where
  | failure (code : Nat)
  | success (s : GoStream)

/-- Embeds `File`: surface an open failure as `(false, err)`, otherwise
classify the file's stream. -/
def File (r : OpenResult) : Bool × Option GoError :=
  match r with
  | OpenResult.failure e => (false, some (GoError.ioErr e))
  | OpenResult.success s => isPlaintextFromReader s

/-- Embeds `io.LimitReader(r, n)` over a deterministic byte source: with a
non-positive budget every read returns `io.EOF` at once; a chunk within the
budget passes through; a chunk exceeding the budget is cut to the remaining
budget (the limited reader truncates the read request), after which the
budget is exhausted and the next read returns `io.EOF` without consulting
the source — so anything past the cut, the source's terminal event
included, is never observed. -/
def limitAux : Int → List (List Nat) → Option Nat → GoStream
  | n, [], term => if n ≤ 0 then ⟨[], none⟩ else ⟨[], term⟩
  | n, c :: rest, term =>
    if n ≤ 0 then ⟨[], none⟩
    else if (c.length : Int) ≤ n then
      let s := limitAux (n - c.length) rest term
      ⟨c :: s.chunks, s.terminal⟩
    else ⟨[c.take n.toNat], none⟩

/-- `io.LimitReader` applied to a stream. -/
def limitReader (n : Int) (s : GoStream) : GoStream :=
  limitAux n s.chunks s.terminal

/-- Two's-complement wraparound into the signed 64-bit range: the result of
a Go `int` arithmetic operation on a 64-bit platform (`int` is 64 bits
wide there, and `int64(·)` of such a value is the identity).  Go defines
signed-integer overflow as wrapping, so `maxKB * 1024` with
`maxKB ≥ 2^53` really produces a non-positive limit.  The constants are
`2^63 = 9223372036854775808` and `2^64 = 18446744073709551616`, written as
decimal literals so that the definition evaluates cheaply. -/
def wrap64 (n : Int) : Int :=
  (n + 9223372036854775808) % 18446744073709551616 - 9223372036854775808

/-- Embeds `FilePreview`: open first (failure takes precedence), then
reject `maxKB == 0`, then classify the stream limited to
`int64(maxKB*1024)` bytes — the product of the machine `int`
multiplication, which wraps (`wrap64`). -/
def FilePreview (r : OpenResult) (maxKB : Int) : Bool × Option GoError :=
  match r with
  | OpenResult.failure e => (false, some (GoError.ioErr e))
  | OpenResult.success s =>
    if maxKB = 0 then (true, some GoError.invalidLength)
    else isPlaintextFromReader (limitReader (wrap64 (maxKB * 1024)) s)

/-- Embeds `Reader`. -/
def Reader (s : GoStream) : Bool × Option GoError :=
  isPlaintextFromReader s

/-- Embeds `ReaderPreview`: reject `maxKB == 0`, else classify the limited
stream (`maxBytes := maxKB * 1024` in machine `int` arithmetic, which
wraps: `wrap64`). -/
def ReaderPreview (s : GoStream) (maxKB : Int) : Bool × Option GoError :=
  let maxBytes := wrap64 (maxKB * 1024)
  if maxKB = 0 then (true, some GoError.invalidLength)
  else isPlaintextFromReader (limitReader maxBytes s)

theorem decodeRune_snd_pos (b0 : Nat) (rest : List Nat) :
    1 ≤ (decodeRune (b0 :: rest)).2 := by
  simp only [decodeRune]
  repeat' split
  all_goals simp

theorem plLoopAux_congr (fuel1 : Nat) :
    ∀ (fuel2 : Nat) (l : List Nat), l.length ≤ fuel1 → l.length ≤ fuel2 →
      plLoopAux fuel1 l = plLoopAux fuel2 l := by
  induction fuel1 with
  | zero =>
    intro fuel2 l h1 _
    cases l with
    | nil => cases fuel2 <;> rfl
    | cons b0 rest => simp at h1
  | succ f ih =>
    intro fuel2 l h1 h2
    cases l with
    | nil => cases fuel2 <;> rfl
    | cons b0 rest =>
      cases fuel2 with
      | zero => simp at h2
      | succ f2 =>
        simp only [plLoopAux]
        split
        · rfl
        · apply ih
          · have := decodeRune_snd_pos b0 rest
            simp only [List.length_drop, List.length_cons]
            simp only [List.length_cons] at h1
            omega
          · have := decodeRune_snd_pos b0 rest
            simp only [List.length_drop, List.length_cons]
            simp only [List.length_cons] at h2
            omega

/-- Unfolding equation for `plLoop` on a nonempty buffer: this is exactly the
Go loop body (check the decoded rune, then advance `pos` by `size`). -/
theorem plLoop_cons_drop (b0 : Nat) (rest : List Nat) :
    plLoop (b0 :: rest) =
      (if (decodeRune (b0 :: rest)).1 < 32 && !((decodeRune (b0 :: rest)).1 = 10) &&
          !((decodeRune (b0 :: rest)).1 = 13) && !((decodeRune (b0 :: rest)).1 = 9) then false
       else plLoop ((b0 :: rest).drop (decodeRune (b0 :: rest)).2)) := by
  show plLoopAux (b0 :: rest).length (b0 :: rest) = _
  simp only [List.length_cons, plLoopAux]
  split
  · rfl
  · apply plLoopAux_congr
    · have := decodeRune_snd_pos b0 rest
      simp only [List.length_drop, List.length_cons]
      omega
    · exact le_refl _


example : isBufferPlaintext [] = true := by decide
example : isBufferPlaintext [72, 101, 108, 108, 111, 33, 10] = true := by decide
example : isBufferPlaintext [0, 1, 2, 3] = false := by decide
example : isBufferPlaintext [72, 101, 108, 108, 111, 7] = false := by decide
example : isBufferPlaintext [0xE4, 0xBD, 0xA0, 0xE5, 0xA5, 0xBD] = true := by decide
example : isBufferPlaintext [0xF0, 0x9F, 0x91, 0x8B] = true := by decide
example : isBufferPlaintext [0xF0, 0x9F, 0x91] = false := by decide
example : isBufferPlaintext [0xC0, 0x80] = false := by decide
example : isBufferPlaintext [0xED, 0xA0, 0x80] = false := by decide
example : isBufferPlaintext [127] = true := by decide
example : isBufferPlaintext [0xC2, 0x80] = true := by decide

theorem utf8First_two (b0 : Nat) (h1 : 0xC2 ≤ b0) (h2 : b0 ≤ 0xDF) :
    utf8First b0 = some (2, 0x80, 0xBF) := by
  unfold utf8First
  rw [if_neg (by omega), if_pos (by omega)]

theorem utf8First_threeB (b0 : Nat) (h1 : 0xE1 ≤ b0) (h2 : b0 ≤ 0xEC) :
    utf8First b0 = some (3, 0x80, 0xBF) := by
  unfold utf8First
  rw [if_neg (by omega), if_neg (by omega), if_neg (by omega), if_neg (by omega),
    if_pos (by omega)]

theorem utf8First_threeD (b0 : Nat) (h1 : 0xEE ≤ b0) (h2 : b0 ≤ 0xEF) :
    utf8First b0 = some (3, 0x80, 0xBF) := by
  unfold utf8First
  rw [if_neg (by omega), if_neg (by omega), if_neg (by omega), if_neg (by omega),
    if_pos (by omega)]

theorem utf8First_fourB (b0 : Nat) (h1 : 0xF1 ≤ b0) (h2 : b0 ≤ 0xF3) :
    utf8First b0 = some (4, 0x80, 0xBF) := by
  unfold utf8First
  rw [if_neg (by omega), if_neg (by omega), if_neg (by omega), if_neg (by omega),
    if_neg (by omega), if_neg (by omega), if_pos (by omega)]

theorem decodeRune_two (b0 b1 lo hi : Nat) (t : List Nat)
    (hf : utf8First b0 = some (2, lo, hi)) (h0 : 0x80 ≤ b0)
    (h1 : lo ≤ b1) (h2 : b1 ≤ hi) :
    decodeRune (b0 :: b1 :: t) = (b0 % 32 * 64 + b1 % 64, 2) := by
  simp only [decodeRune, hf]
  rw [if_neg (by omega : ¬ b0 < 0x80)]
  have e1 : decide (b1 < lo) = false := by simp only [decide_eq_false_iff_not]; omega
  have e2 : decide (hi < b1) = false := by simp only [decide_eq_false_iff_not]; omega
  simp [e1, e2]

theorem decodeRune_three (b0 b1 b2 lo hi : Nat) (t : List Nat)
    (hf : utf8First b0 = some (3, lo, hi)) (h0 : 0x80 ≤ b0)
    (h1 : lo ≤ b1) (h2 : b1 ≤ hi) (h3 : 0x80 ≤ b2) (h4 : b2 ≤ 0xBF) :
    decodeRune (b0 :: b1 :: b2 :: t) = (b0 % 16 * 4096 + b1 % 64 * 64 + b2 % 64, 3) := by
  simp only [decodeRune, hf]
  rw [if_neg (by omega : ¬ b0 < 0x80)]
  have e1 : decide (b1 < lo) = false := by simp only [decide_eq_false_iff_not]; omega
  have e2 : decide (hi < b1) = false := by simp only [decide_eq_false_iff_not]; omega
  have e3 : decide (b2 < 0x80) = false := by simp only [decide_eq_false_iff_not]; omega
  have e4 : decide (0xBF < b2) = false := by simp only [decide_eq_false_iff_not]; omega
  simp [e1, e2, e3, e4]

theorem decodeRune_four (b0 b1 b2 b3 lo hi : Nat) (t : List Nat)
    (hf : utf8First b0 = some (4, lo, hi)) (h0 : 0x80 ≤ b0)
    (h1 : lo ≤ b1) (h2 : b1 ≤ hi) (h3 : 0x80 ≤ b2) (h4 : b2 ≤ 0xBF)
    (h5 : 0x80 ≤ b3) (h6 : b3 ≤ 0xBF) :
    decodeRune (b0 :: b1 :: b2 :: b3 :: t) =
      (b0 % 8 * 262144 + b1 % 64 * 4096 + b2 % 64 * 64 + b3 % 64, 4) := by
  simp only [decodeRune, hf]
  rw [if_neg (by omega : ¬ b0 < 0x80)]
  have e1 : decide (b1 < lo) = false := by simp only [decide_eq_false_iff_not]; omega
  have e2 : decide (hi < b1) = false := by simp only [decide_eq_false_iff_not]; omega
  have e3 : decide (b2 < 0x80) = false := by simp only [decide_eq_false_iff_not]; omega
  have e4 : decide (0xBF < b2) = false := by simp only [decide_eq_false_iff_not]; omega
  have e5 : decide (b3 < 0x80) = false := by simp only [decide_eq_false_iff_not]; omega
  have e6 : decide (0xBF < b3) = false := by simp only [decide_eq_false_iff_not]; omega
  simp [e1, e2, e3, e4, e5, e6]

/-- Decoding an encoded scalar value recovers the scalar and its byte size,
whatever bytes follow the encoding. -/
theorem decode_encode (c : Nat) (t : List Nat) (h : ScalarValue c) :
    decodeRune (encodeUtf8 c ++ t) = (c, (encodeUtf8 c).length) := by
  obtain ⟨hmax, hsurr⟩ := h
  by_cases h1 : c < 0x80
  · simp [encodeUtf8, decodeRune, h1]
  · by_cases h2 : c < 0x800
    · have he : encodeUtf8 c = [0xC0 + c / 64, 0x80 + c % 64] := by
        unfold encodeUtf8; rw [if_neg h1, if_pos h2]
      rw [he, List.cons_append, List.cons_append, List.nil_append,
        decodeRune_two _ _ _ _ t (utf8First_two _ (by omega) (by omega))
          (by omega) (by omega) (by omega)]
      simp only [Prod.mk.injEq, List.length_cons, List.length_nil, and_true]
      omega
    · by_cases h3 : c < 0x10000
      · have he : encodeUtf8 c = [0xE0 + c / 4096, 0x80 + c / 64 % 64, 0x80 + c % 64] := by
          unfold encodeUtf8; rw [if_neg h1, if_neg h2, if_pos h3]
        rw [he, List.cons_append, List.cons_append, List.cons_append, List.nil_append]
        have hfin : ∀ lo hi, utf8First (0xE0 + c / 4096) = some (3, lo, hi) →
            lo ≤ 0x80 + c / 64 % 64 → 0x80 + c / 64 % 64 ≤ hi →
            decodeRune ((0xE0 + c / 4096) :: (0x80 + c / 64 % 64) :: (0x80 + c % 64) :: t) =
              (c, ([0xE0 + c / 4096, 0x80 + c / 64 % 64, 0x80 + c % 64]).length) := by
          intro lo hi hf hlo hhi
          rw [decodeRune_three _ _ _ _ _ t hf (by omega) hlo hhi (by omega) (by omega)]
          simp only [Prod.mk.injEq, List.length_cons, List.length_nil, and_true]
          omega
        by_cases hq0 : c < 0x1000
        · have hb0 : 0xE0 + c / 4096 = 0xE0 := by omega
          exact hfin 0xA0 0xBF (by rw [hb0]; decide) (by omega) (by omega)
        · by_cases hq13 : c < 0xD000
          · exact hfin 0x80 0xBF (utf8First_threeB _ (by omega) (by omega)) (by omega) (by omega)
          · by_cases hqED : c < 0xE000
            · have hb0 : 0xE0 + c / 4096 = 0xED := by omega
              exact hfin 0x80 0x9F (by rw [hb0]; decide) (by omega) (by omega)
            · exact hfin 0x80 0xBF (utf8First_threeD _ (by omega) (by omega)) (by omega) (by omega)
      · have he : encodeUtf8 c =
            [0xF0 + c / 262144, 0x80 + c / 4096 % 64, 0x80 + c / 64 % 64, 0x80 + c % 64] := by
          unfold encodeUtf8; rw [if_neg h1, if_neg h2, if_neg h3]
        rw [he, List.cons_append, List.cons_append, List.cons_append, List.cons_append,
          List.nil_append]
        have hfin : ∀ lo hi, utf8First (0xF0 + c / 262144) = some (4, lo, hi) →
            lo ≤ 0x80 + c / 4096 % 64 → 0x80 + c / 4096 % 64 ≤ hi →
            decodeRune ((0xF0 + c / 262144) :: (0x80 + c / 4096 % 64) ::
                (0x80 + c / 64 % 64) :: (0x80 + c % 64) :: t) =
              (c, ([0xF0 + c / 262144, 0x80 + c / 4096 % 64, 0x80 + c / 64 % 64,
                0x80 + c % 64]).length) := by
          intro lo hi hf hlo hhi
          rw [decodeRune_four _ _ _ _ _ _ t hf (by omega) hlo hhi (by omega) (by omega)
            (by omega) (by omega)]
          simp only [Prod.mk.injEq, List.length_cons, List.length_nil, and_true]
          omega
        by_cases hq0 : c < 0x40000
        · have hb0 : 0xF0 + c / 262144 = 0xF0 := by omega
          exact hfin 0x90 0xBF (by rw [hb0]; decide) (by omega) (by omega)
        · by_cases hq4 : c < 0x100000
          · exact hfin 0x80 0xBF (utf8First_fourB _ (by omega) (by omega)) (by omega) (by omega)
          · have hb0 : 0xF0 + c / 262144 = 0xF4 := by omega
            exact hfin 0x80 0x8F (by rw [hb0]; decide) (by omega) (by omega)

/-- Exhaustive description of the leading-byte table. -/
theorem utf8First_inv (b0 sz lo hi : Nat) (h : utf8First b0 = some (sz, lo, hi)) :
    (0xC2 ≤ b0 ∧ b0 ≤ 0xDF ∧ sz = 2 ∧ lo = 0x80 ∧ hi = 0xBF) ∨
    (b0 = 0xE0 ∧ sz = 3 ∧ lo = 0xA0 ∧ hi = 0xBF) ∨
    (0xE1 ≤ b0 ∧ b0 ≤ 0xEC ∧ sz = 3 ∧ lo = 0x80 ∧ hi = 0xBF) ∨
    (b0 = 0xED ∧ sz = 3 ∧ lo = 0x80 ∧ hi = 0x9F) ∨
    (0xEE ≤ b0 ∧ b0 ≤ 0xEF ∧ sz = 3 ∧ lo = 0x80 ∧ hi = 0xBF) ∨
    (b0 = 0xF0 ∧ sz = 4 ∧ lo = 0x90 ∧ hi = 0xBF) ∨
    (0xF1 ≤ b0 ∧ b0 ≤ 0xF3 ∧ sz = 4 ∧ lo = 0x80 ∧ hi = 0xBF) ∨
    (b0 = 0xF4 ∧ sz = 4 ∧ lo = 0x80 ∧ hi = 0x8F) := by
  unfold utf8First at h
  repeat' split at h
  all_goals simp_all
  all_goals omega

/-- Reconstructing a two-byte encoding from in-range bytes. -/
theorem encode_bytes_two (b0 b1 : Nat) (h0 : 0xC2 ≤ b0) (h0' : b0 ≤ 0xDF)
    (h1 : 0x80 ≤ b1) (h1' : b1 ≤ 0xBF) :
    encodeUtf8 ((b0 - 0xC0) * 64 + (b1 - 0x80)) = [b0, b1] := by
  unfold encodeUtf8
  rw [if_neg (by omega), if_pos (by omega)]
  simp only [List.cons.injEq, and_true]
  omega

/-- Reconstructing a three-byte encoding from in-range bytes; `hno` rules out
the overlong case. -/
theorem encode_bytes_three (b0 b1 b2 : Nat) (h0 : 0xE0 ≤ b0) (h0' : b0 ≤ 0xEF)
    (h1 : 0x80 ≤ b1) (h1' : b1 ≤ 0xBF) (h2 : 0x80 ≤ b2) (h2' : b2 ≤ 0xBF)
    (hno : ¬(b0 = 0xE0 ∧ b1 < 0xA0)) :
    encodeUtf8 ((b0 - 0xE0) * 4096 + (b1 - 0x80) * 64 + (b2 - 0x80)) = [b0, b1, b2] := by
  unfold encodeUtf8
  rw [if_neg (by omega), if_neg (by omega), if_pos (by omega)]
  simp only [List.cons.injEq, and_true]
  omega

/-- Reconstructing a four-byte encoding from in-range bytes; `hno` rules out
the overlong case. -/
theorem encode_bytes_four (b0 b1 b2 b3 : Nat) (h0 : 0xF0 ≤ b0) (h0' : b0 ≤ 0xF4)
    (h1 : 0x80 ≤ b1) (h1' : b1 ≤ 0xBF) (h2 : 0x80 ≤ b2) (h2' : b2 ≤ 0xBF)
    (h3 : 0x80 ≤ b3) (h3' : b3 ≤ 0xBF) (hno : ¬(b0 = 0xF0 ∧ b1 < 0x90)) :
    encodeUtf8 ((b0 - 0xF0) * 262144 + (b1 - 0x80) * 4096 + (b2 - 0x80) * 64 + (b3 - 0x80)) =
      [b0, b1, b2, b3] := by
  unfold encodeUtf8
  rw [if_neg (by omega), if_neg (by omega), if_neg (by omega)]
  simp only [List.cons.injEq, and_true]
  omega

theorem utf8Valid_two (b0 b1 lo hi : Nat) (r : List Nat)
    (hf : utf8First b0 = some (2, lo, hi)) (h0 : ¬ b0 < 0x80)
    (h1 : lo ≤ b1) (h2 : b1 ≤ hi) :
    utf8Valid (b0 :: b1 :: r) = utf8Valid r := by
  simp only [utf8Valid, hf]
  rw [if_neg h0]
  simp [h1, h2]

theorem utf8Valid_three (b0 b1 b2 lo hi : Nat) (r : List Nat)
    (hf : utf8First b0 = some (3, lo, hi)) (h0 : ¬ b0 < 0x80)
    (h1 : lo ≤ b1) (h2 : b1 ≤ hi) (h3 : 0x80 ≤ b2) (h4 : b2 ≤ 0xBF) :
    utf8Valid (b0 :: b1 :: b2 :: r) = utf8Valid r := by
  simp only [utf8Valid, hf]
  rw [if_neg h0]
  simp [h1, h2, h3, h4]

theorem utf8Valid_four (b0 b1 b2 b3 lo hi : Nat) (r : List Nat)
    (hf : utf8First b0 = some (4, lo, hi)) (h0 : ¬ b0 < 0x80)
    (h1 : lo ≤ b1) (h2 : b1 ≤ hi) (h3 : 0x80 ≤ b2) (h4 : b2 ≤ 0xBF)
    (h5 : 0x80 ≤ b3) (h6 : b3 ≤ 0xBF) :
    utf8Valid (b0 :: b1 :: b2 :: b3 :: r) = utf8Valid r := by
  simp only [utf8Valid, hf]
  rw [if_neg h0]
  simp [h1, h2, h3, h4, h5, h6]

/-- Prepending one encoded scalar value preserves validity of the rest. -/
theorem utf8Valid_encode_append (c : Nat) (t : List Nat) (h : ScalarValue c) :
    utf8Valid (encodeUtf8 c ++ t) = utf8Valid t := by
  obtain ⟨hmax, hsurr⟩ := h
  by_cases h1 : c < 0x80
  · simp only [encodeUtf8, if_pos h1, List.cons_append, List.nil_append]
    simp only [utf8Valid]
    rw [if_pos h1]
  · by_cases h2 : c < 0x800
    · have he : encodeUtf8 c = [0xC0 + c / 64, 0x80 + c % 64] := by
        unfold encodeUtf8; rw [if_neg h1, if_pos h2]
      rw [he, List.cons_append, List.cons_append, List.nil_append]
      exact utf8Valid_two _ _ _ _ t (utf8First_two _ (by omega) (by omega))
        (by omega) (by omega) (by omega)
    · by_cases h3 : c < 0x10000
      · have he : encodeUtf8 c = [0xE0 + c / 4096, 0x80 + c / 64 % 64, 0x80 + c % 64] := by
          unfold encodeUtf8; rw [if_neg h1, if_neg h2, if_pos h3]
        rw [he, List.cons_append, List.cons_append, List.cons_append, List.nil_append]
        by_cases hq0 : c < 0x1000
        · have hb0 : 0xE0 + c / 4096 = 0xE0 := by omega
          exact utf8Valid_three _ _ _ 0xA0 0xBF t (by rw [hb0]; decide) (by omega)
            (by omega) (by omega) (by omega) (by omega)
        · by_cases hq13 : c < 0xD000
          · exact utf8Valid_three _ _ _ _ _ t (utf8First_threeB _ (by omega) (by omega))
              (by omega) (by omega) (by omega) (by omega) (by omega)
          · by_cases hqED : c < 0xE000
            · have hb0 : 0xE0 + c / 4096 = 0xED := by omega
              exact utf8Valid_three _ _ _ 0x80 0x9F t (by rw [hb0]; decide) (by omega)
                (by omega) (by omega) (by omega) (by omega)
            · exact utf8Valid_three _ _ _ _ _ t (utf8First_threeD _ (by omega) (by omega))
                (by omega) (by omega) (by omega) (by omega) (by omega)
      · have he : encodeUtf8 c =
            [0xF0 + c / 262144, 0x80 + c / 4096 % 64, 0x80 + c / 64 % 64, 0x80 + c % 64] := by
          unfold encodeUtf8; rw [if_neg h1, if_neg h2, if_neg h3]
        rw [he, List.cons_append, List.cons_append, List.cons_append, List.cons_append,
          List.nil_append]
        by_cases hq0 : c < 0x40000
        · have hb0 : 0xF0 + c / 262144 = 0xF0 := by omega
          exact utf8Valid_four _ _ _ _ 0x90 0xBF t (by rw [hb0]; decide) (by omega)
            (by omega) (by omega) (by omega) (by omega) (by omega) (by omega)
        · by_cases hq4 : c < 0x100000
          · exact utf8Valid_four _ _ _ _ _ _ t (utf8First_fourB _ (by omega) (by omega))
              (by omega) (by omega) (by omega) (by omega) (by omega) (by omega) (by omega)
          · have hb0 : 0xF0 + c / 262144 = 0xF4 := by omega
            exact utf8Valid_four _ _ _ _ 0x80 0x8F t (by rw [hb0]; decide) (by omega)
              (by omega) (by omega) (by omega) (by omega) (by omega) (by omega)

/-- A valid nonempty buffer starts with the encoding of some scalar value,
followed by a valid remainder. -/
theorem utf8Valid_decomp (b0 : Nat) (rest : List Nat)
    (hv : utf8Valid (b0 :: rest) = true) :
    ∃ c t, ScalarValue c ∧ b0 :: rest = encodeUtf8 c ++ t ∧ utf8Valid t = true := by
  by_cases h0 : b0 < 0x80
  · refine ⟨b0, rest, ⟨by omega, by omega⟩, ?_, ?_⟩
    · simp [encodeUtf8, if_pos h0]
    · rw [utf8Valid, if_pos h0] at hv
      exact hv
  · rcases hfm : utf8First b0 with _ | ⟨⟨sz, lo, hi⟩⟩
    · rw [utf8Valid, if_neg h0, hfm] at hv
      simp at hv
    · rw [utf8Valid, if_neg h0, hfm] at hv
      rcases utf8First_inv b0 sz lo hi hfm with
        ⟨hA1, hA2, hsz, hlo, hhi⟩ | ⟨hA1, hsz, hlo, hhi⟩ | ⟨hA1, hA2, hsz, hlo, hhi⟩ |
        ⟨hA1, hsz, hlo, hhi⟩ | ⟨hA1, hA2, hsz, hlo, hhi⟩ | ⟨hA1, hsz, hlo, hhi⟩ |
        ⟨hA1, hA2, hsz, hlo, hhi⟩ | ⟨hA1, hsz, hlo, hhi⟩
      all_goals subst hsz
      all_goals subst hlo
      all_goals subst hhi
      · cases rest with
        | nil => simp at hv
        | cons b1 r =>
          simp at hv
          obtain ⟨⟨hb1, hb1'⟩, hvr⟩ := hv
          refine ⟨(b0 - 0xC0) * 64 + (b1 - 0x80), r, ⟨by omega, by omega⟩, ?_, hvr⟩
          rw [encode_bytes_two b0 b1 hA1 hA2 hb1 hb1']
          rfl
      all_goals first
      | (cases rest with
        | nil => simp at hv
        | cons b1 r1 =>
          cases r1 with
          | nil => simp at hv
          | cons b2 r =>
            simp at hv
            obtain ⟨⟨⟨⟨hb1, hb1'⟩, hb2⟩, hb2'⟩, hvr⟩ := hv
            refine ⟨(b0 - 0xE0) * 4096 + (b1 - 0x80) * 64 + (b2 - 0x80), r,
              ⟨by omega, by omega⟩, ?_, hvr⟩
            rw [encode_bytes_three b0 b1 b2 (by omega) (by omega) (by omega) (by omega)
              (by omega) (by omega) (by omega)]
            rfl)
      | (cases rest with
        | nil => simp at hv
        | cons b1 r1 =>
          cases r1 with
          | nil => simp at hv
          | cons b2 r2 =>
            cases r2 with
            | nil => simp at hv
            | cons b3 r =>
              simp at hv
              obtain ⟨⟨⟨⟨⟨⟨hb1, hb1'⟩, hb2⟩, hb2'⟩, hb3⟩, hb3'⟩, hvr⟩ := hv
              refine ⟨(b0 - 0xF0) * 262144 + (b1 - 0x80) * 4096 + (b2 - 0x80) * 64 +
                (b3 - 0x80), r, ⟨by omega, by omega⟩, ?_, hvr⟩
              rw [encode_bytes_four b0 b1 b2 b3 (by omega) (by omega) (by omega) (by omega)
                (by omega) (by omega) (by omega) (by omega) (by omega)]
              rfl)

theorem encodeUtf8_length_pos (c : Nat) : 1 ≤ (encodeUtf8 c).length := by
  unfold encodeUtf8
  repeat' split
  all_goals simp

/-- Soundness half: a buffer accepted by the Go validator is a concatenation
of encoded scalar values. -/
theorem isUtf8_of_utf8Valid (n : Nat) : ∀ bs : List Nat, bs.length ≤ n →
    utf8Valid bs = true → ∃ rs, IsUtf8 bs rs := by
  induction n with
  | zero =>
    intro bs h _
    cases bs with
    | nil => exact ⟨[], IsUtf8.nil⟩
    | cons b0 rest => simp at h
  | succ m ih =>
    intro bs h hv
    cases bs with
    | nil => exact ⟨[], IsUtf8.nil⟩
    | cons b0 rest =>
      obtain ⟨c, t, hsc, heq, hvt⟩ := utf8Valid_decomp b0 rest hv
      have hlen : t.length ≤ m := by
        have h1 := encodeUtf8_length_pos c
        have h2 : (b0 :: rest).length = (encodeUtf8 c).length + t.length := by
          rw [heq, List.length_append]
        simp only [List.length_cons] at h2 h
        omega
      obtain ⟨rs, hrs⟩ := ih t hlen hvt
      rw [heq]
      exact ⟨c :: rs, IsUtf8.cons c t rs hsc hrs⟩

/-- Completeness half: a concatenation of encoded scalar values passes the
Go validator. -/
theorem utf8Valid_of_isUtf8 (bs rs : List Nat) (h : IsUtf8 bs rs) :
    utf8Valid bs = true := by
  induction h with
  | nil => rfl
  | cons c bs' rs' hsc _ ih => rw [utf8Valid_encode_append c bs' hsc]; exact ih

theorem encodeUtf8_cons (c : Nat) : ∃ x xs, encodeUtf8 c = x :: xs := by
  unfold encodeUtf8
  repeat' split
  all_goals exact ⟨_, _, rfl⟩

/-- Stepping the scan loop over one encoded scalar value. -/
theorem plLoop_encode (c : Nat) (t : List Nat) (h : ScalarValue c) :
    plLoop (encodeUtf8 c ++ t) =
      (if c < 32 ∧ c ≠ 10 ∧ c ≠ 13 ∧ c ≠ 9 then false else plLoop t) := by
  obtain ⟨x, xs, hx⟩ := encodeUtf8_cons c
  have hd := decode_encode c t h
  rw [hx, List.cons_append] at hd
  have hdrop : (x :: (xs ++ t)).drop (x :: xs).length = t := by
    rw [← List.cons_append, List.drop_left]
  rw [hx, List.cons_append, plLoop_cons_drop]
  simp only [hd, hdrop]
  by_cases hc : c < 32 ∧ c ≠ 10 ∧ c ≠ 13 ∧ c ≠ 9
  · rw [if_pos hc, if_pos (by simp [hc.1, hc.2.1, hc.2.2.1, hc.2.2.2])]
  · rw [if_neg hc, if_neg ?_]
    simp only [Bool.and_eq_true, decide_eq_true_eq, Bool.not_eq_true',
      decide_eq_false_iff_not]
    omega

/-- The scan loop accepts exactly when every decoded code point is
admissible. -/
theorem plLoop_spec (bs rs : List Nat) (h : IsUtf8 bs rs) :
    plLoop bs = true ↔ ∀ r ∈ rs, runeOK r := by
  induction h with
  | nil => simp [plLoop, plLoopAux]
  | cons c bs' rs' hsc _ ih =>
    rw [plLoop_encode c bs' hsc]
    by_cases hc : c < 32 ∧ c ≠ 10 ∧ c ≠ 13 ∧ c ≠ 9
    · rw [if_pos hc]
      constructor
      · intro hfalse
        exact absurd hfalse (by simp)
      · intro hall
        have := hall c (by simp)
        unfold runeOK at this
        exfalso
        omega
    · rw [if_neg hc]
      have hcok : runeOK c := by unfold runeOK; omega
      simp only [List.mem_cons, forall_eq_or_imp]
      rw [ih]
      simp [hcok]

/-- C1: for every byte sequence (including the empty one), `isBufferPlaintext`
returns `true` iff the sequence is a valid UTF-8 encoding of some code-point
sequence in which every code point is ≥ 32 or one of newline (10), carriage
return (13), horizontal tab (9). -/
theorem spec_c1 (bs : List Nat) :
    isBufferPlaintext bs = true ↔ ∃ rs, IsUtf8 bs rs ∧ ∀ r ∈ rs, runeOK r := by
  constructor
  · intro h
    unfold isBufferPlaintext at h
    by_cases hv : utf8Valid bs = true
    · obtain ⟨rs, hrs⟩ := isUtf8_of_utf8Valid bs.length bs (le_refl _) hv
      refine ⟨rs, hrs, ?_⟩
      rw [← plLoop_spec bs rs hrs]
      rw [hv] at h
      simpa using h
    · rw [Bool.not_eq_true] at hv
      rw [hv] at h
      simp at h
  · rintro ⟨rs, hrs, hok⟩
    have hv := utf8Valid_of_isUtf8 bs rs hrs
    unfold isBufferPlaintext
    rw [hv]
    simpa using (plLoop_spec bs rs hrs).mpr hok

/-- C8: the classifier rejects, among valid encodings, only code points
strictly below 32 other than newline/CR/tab; in particular DEL (127) and the
C1 controls (128–159), validly encoded, classify as plaintext. -/
theorem spec_c8 :
    (∀ bs rs, IsUtf8 bs rs → isBufferPlaintext bs = false →
      ∃ r ∈ rs, r < 32 ∧ r ≠ 10 ∧ r ≠ 13 ∧ r ≠ 9) ∧
    (∀ c, 127 ≤ c → c ≤ 159 → isBufferPlaintext (encodeUtf8 c) = true) := by
  constructor
  · intro bs rs hrs hfail
    have hv := utf8Valid_of_isUtf8 bs rs hrs
    unfold isBufferPlaintext at hfail
    rw [hv] at hfail
    simp only [Bool.not_true, Bool.false_eq_true, if_false] at hfail
    have hiff := plLoop_spec bs rs hrs
    rw [hfail] at hiff
    have hnall : ¬ ∀ r ∈ rs, runeOK r := by
      intro hall
      exact absurd (hiff.mpr hall) (by simp)
    push_neg at hnall
    obtain ⟨r, hr, hnok⟩ := hnall
    unfold runeOK at hnok
    exact ⟨r, hr, by omega⟩
  · intro c h1 h2
    have hsc : ScalarValue c := ⟨by omega, by omega⟩
    have hutf : IsUtf8 (encodeUtf8 c) [c] := by
      have := IsUtf8.cons c [] [] hsc IsUtf8.nil
      simpa using this
    unfold isBufferPlaintext
    rw [utf8Valid_of_isUtf8 _ _ hutf]
    have := (plLoop_spec _ _ hutf).mpr (by
      intro r hr
      simp only [List.mem_singleton] at hr
      subst hr
      unfold runeOK
      omega)
    simpa using this

/-- Witness for C8 at DEL (127) and U+009F (159, top of the C1 range). -/
theorem spec_c8_witness :
    isBufferPlaintext (encodeUtf8 127) = true ∧
    isBufferPlaintext (encodeUtf8 159) = true :=
  ⟨spec_c8.2 127 (by decide) (by decide), spec_c8.2 159 (by decide) (by decide)⟩

theorem readLoop_eq (chunks : List (List Nat)) :
    ∀ (term : Option Nat) (acc : List Nat),
      readLoop chunks term acc = (acc ++ chunks.flatten, term) := by
  induction chunks with
  | nil => intro term acc; simp [readLoop]
  | cons c rest ih =>
    intro term acc
    rw [readLoop, ih]
    simp

/-- A stream ending in a read error makes the accumulator fail with that
error. -/
theorem isPlaintextFromReader_err (s : GoStream) (e : Nat)
    (h : s.terminal = some e) :
    isPlaintextFromReader s = (false, some (GoError.ioErr e)) := by
  unfold isPlaintextFromReader
  rw [readLoop_eq, h]

/-- A cleanly ending stream is classified by the buffer's bytes alone. -/
theorem isPlaintextFromReader_eof (s : GoStream) (h : s.terminal = none) :
    isPlaintextFromReader s = (isBufferPlaintext (content s), none) := by
  unfold isPlaintextFromReader
  rw [readLoop_eq, h]
  simp only [List.nil_append]
  by_cases he : s.chunks.flatten.isEmpty
  · rw [if_pos he]
    have : content s = [] := by simpa [content, List.isEmpty_iff] using he
    rw [this]
    rfl
  · rw [if_neg he]
    rfl

theorem limitAux_content (chunks : List (List Nat)) :
    ∀ (n : Int) (term : Option Nat),
      (limitAux n chunks term).chunks.flatten = chunks.flatten.take n.toNat := by
  induction chunks with
  | nil =>
    intro n term
    unfold limitAux
    split <;> simp
  | cons c rest ih =>
    intro n term
    unfold limitAux
    by_cases h0 : n ≤ 0
    · rw [if_pos h0]
      have : n.toNat = 0 := by omega
      simp [this]
    · rw [if_neg h0]
      by_cases h1 : (c.length : Int) ≤ n
      · rw [if_pos h1]
        simp only [List.flatten_cons, ih]
        rw [List.take_append_eq_append_take]
        have e1 : c.take n.toNat = c := List.take_of_length_le (by omega)
        have e2 : (n - c.length).toNat = n.toNat - c.length := by omega
        rw [e1, e2]
      · rw [if_neg h1]
        simp only [List.flatten_cons, List.flatten_nil, List.append_nil]
        rw [List.take_append_eq_append_take]
        have e1 : n.toNat - c.length = 0 := by omega
        rw [e1]
        simp



theorem limitAux_terminal (chunks : List (List Nat)) :
    ∀ (n : Int) (term : Option Nat),
      (limitAux n chunks term).terminal =
        if (chunks.flatten.length : Int) < n then term else none := by
  induction chunks with
  | nil =>
    intro n term
    unfold limitAux
    simp only [List.flatten_nil, List.length_nil]
    split_ifs with h1 h2 h3 <;> first | rfl | omega
  | cons c rest ih =>
    intro n term
    unfold limitAux
    by_cases h0 : n ≤ 0
    · rw [if_pos h0]
      have hno : ¬ (((c :: rest).flatten.length : Int) < n) := by
        have : (0 : Int) ≤ ((c :: rest).flatten.length : Int) := by positivity
        omega
      rw [if_neg hno]
    · rw [if_neg h0]
      by_cases h1 : (c.length : Int) ≤ n
      · rw [if_pos h1]
        show (limitAux (n - c.length) rest term).terminal = _
        rw [ih]
        simp only [List.flatten_cons, List.length_append]
        split_ifs <;> first | rfl | omega
      · rw [if_neg h1]
        show (none : Option Nat) = _
        have hno : ¬ (((c :: rest).flatten.length : Int) < n) := by
          simp only [List.flatten_cons, List.length_append]
          push_cast
          omega
        rw [if_neg hno]

/-- Validity is invariant under removing a leading valid encoding. -/
theorem utf8Valid_append_isUtf8 (w ws : List Nat) (h : IsUtf8 w ws) (x : List Nat) :
    utf8Valid (w ++ x) = utf8Valid x := by
  induction h with
  | nil => rfl
  | cons c bs rs hsc _ ih =>
    rw [List.append_assoc, utf8Valid_encode_append c _ hsc, ih]

theorem utf8Valid_one_of_first (b0 sz lo hi : Nat)
    (hf : utf8First b0 = some (sz, lo, hi)) (h0 : ¬ b0 < 0x80) :
    utf8Valid [b0] = false := by
  simp only [utf8Valid, hf]
  rw [if_neg h0]
  split_ifs <;> rfl

theorem utf8Valid_two_of_first (b0 b1 sz lo hi : Nat)
    (hf : utf8First b0 = some (sz, lo, hi)) (h0 : ¬ b0 < 0x80) (hsz : ¬ sz = 2) :
    utf8Valid [b0, b1] = false := by
  simp only [utf8Valid, hf]
  rw [if_neg h0, if_neg hsz]
  split_ifs <;> rfl

theorem utf8Valid_three_of_first (b0 b1 b2 lo hi : Nat)
    (hf : utf8First b0 = some (4, lo, hi)) (h0 : ¬ b0 < 0x80) :
    utf8Valid [b0, b1, b2] = false := by
  simp only [utf8Valid, hf]
  rw [if_neg h0]
  split_ifs <;> first | rfl | omega

theorem utf8First_of_lead3 (b0 : Nat) (h1 : 0xE0 ≤ b0) (h2 : b0 ≤ 0xEF) :
    ∃ lo hi, utf8First b0 = some (3, lo, hi) := by
  by_cases hA : b0 = 0xE0
  · exact ⟨0xA0, 0xBF, by rw [hA]; decide⟩
  · by_cases hB : b0 = 0xED
    · exact ⟨0x80, 0x9F, by rw [hB]; decide⟩
    · by_cases hC : b0 ≤ 0xEC
      · exact ⟨0x80, 0xBF, utf8First_threeB b0 (by omega) (by omega)⟩
      · exact ⟨0x80, 0xBF, utf8First_threeD b0 (by omega) (by omega)⟩

theorem utf8First_of_lead4 (b0 : Nat) (h1 : 0xF0 ≤ b0) (h2 : b0 ≤ 0xF4) :
    ∃ lo hi, utf8First b0 = some (4, lo, hi) := by
  by_cases hA : b0 = 0xF0
  · exact ⟨0x90, 0xFF - 0x40, by rw [hA]; decide⟩
  · by_cases hB : b0 = 0xF4
    · exact ⟨0x80, 0x8F, by rw [hB]; decide⟩
    · exact ⟨0x80, 0xBF, utf8First_fourB b0 (by omega) (by omega)⟩

/-- A strict, nonempty prefix of one encoded scalar value is not valid:
cutting inside a multi-byte code point leaves an invalid (truncated)
sequence. -/
theorem utf8Valid_take_encode (c k : Nat) (h : ScalarValue c) (hk0 : 0 < k)
    (hk : k < (encodeUtf8 c).length) : utf8Valid ((encodeUtf8 c).take k) = false := by
  obtain ⟨hmax, hsurr⟩ := h
  by_cases h1 : c < 0x80
  · have : (encodeUtf8 c).length = 1 := by simp [encodeUtf8, if_pos h1]
    omega
  · by_cases h2 : c < 0x800
    · have he : encodeUtf8 c = [0xC0 + c / 64, 0x80 + c % 64] := by
        unfold encodeUtf8; rw [if_neg h1, if_pos h2]
      rw [he] at hk ⊢
      simp only [List.length_cons, List.length_nil] at hk
      have hk1 : k = 1 := by omega
      subst hk1
      simp only [List.take_succ_cons, List.take_zero]
      exact utf8Valid_one_of_first _ _ _ _ (utf8First_two _ (by omega) (by omega)) (by omega)
    · by_cases h3 : c < 0x10000
      · have he : encodeUtf8 c = [0xE0 + c / 4096, 0x80 + c / 64 % 64, 0x80 + c % 64] := by
          unfold encodeUtf8; rw [if_neg h1, if_neg h2, if_pos h3]
        obtain ⟨lo, hi, hf⟩ := utf8First_of_lead3 (0xE0 + c / 4096) (by omega) (by omega)
        rw [he] at hk ⊢
        simp only [List.length_cons, List.length_nil] at hk
        by_cases hk1 : k = 1
        · subst hk1
          simp only [List.take_succ_cons, List.take_zero]
          exact utf8Valid_one_of_first _ _ _ _ hf (by omega)
        · have hk2 : k = 2 := by omega
          subst hk2
          simp only [List.take_succ_cons, List.take_zero]
          exact utf8Valid_two_of_first _ _ _ _ _ hf (by omega) (by omega)
      · have he : encodeUtf8 c =
            [0xF0 + c / 262144, 0x80 + c / 4096 % 64, 0x80 + c / 64 % 64, 0x80 + c % 64] := by
          unfold encodeUtf8; rw [if_neg h1, if_neg h2, if_neg h3]
        obtain ⟨lo, hi, hf⟩ := utf8First_of_lead4 (0xF0 + c / 262144) (by omega) (by omega)
        rw [he] at hk ⊢
        simp only [List.length_cons, List.length_nil] at hk
        by_cases hk1 : k = 1
        · subst hk1
          simp only [List.take_succ_cons, List.take_zero]
          exact utf8Valid_one_of_first _ _ _ _ hf (by omega)
        · by_cases hk2 : k = 2
          · subst hk2
            simp only [List.take_succ_cons, List.take_zero]
            exact utf8Valid_two_of_first _ _ _ _ _ hf (by omega) (by omega)
          · have hk3 : k = 3 := by omega
            subst hk3
            simp only [List.take_succ_cons, List.take_zero]
            exact utf8Valid_three_of_first _ _ _ _ _ hf (by omega)

/-- Any result of the accumulator that carries an error has boolean `false`
and an I/O error (never the invalid-length error). -/
theorem ipfr_snd_some (s : GoStream) (b : Bool) (e : GoError)
    (heq : isPlaintextFromReader s = (b, some e)) :
    b = false ∧ ∃ code, e = GoError.ioErr code := by
  cases hterm : s.terminal with
  | some code =>
    rw [isPlaintextFromReader_err s code hterm] at heq
    simp only [Prod.mk.injEq, Option.some.injEq] at heq
    exact ⟨heq.1.symm, code, heq.2.symm⟩
  | none =>
    rw [isPlaintextFromReader_eof s hterm] at heq
    simp at heq

theorem wrap64_eq_self (n : Int) (hlo : -9223372036854775808 ≤ n)
    (hhi : n < 9223372036854775808) : wrap64 n = n := by
  unfold wrap64
  omega

theorem utf8Valid_replicate_zero (n : Nat) :
    utf8Valid (List.replicate n 0) = true := by
  induction n with
  | zero => rfl
  | succ m ih =>
    simp only [List.replicate_succ, utf8Valid]
    rw [if_pos (by norm_num)]
    exact ih

theorem isBufferPlaintext_zero_cons (l : List Nat) (hv : utf8Valid l = true) :
    isBufferPlaintext (0 :: l) = false := by
  have hv0 : utf8Valid (0 :: l) = true := by
    simp only [utf8Valid]
    rw [if_pos (by norm_num)]
    exact hv
  unfold isBufferPlaintext
  rw [hv0]
  show plLoop (0 :: l) = false
  rw [plLoop_cons_drop]
  have hd : decodeRune (0 :: l) = (0, 1) := by simp [decodeRune]
  rw [hd]
  rfl

/-- C2 (code evaluated at the failing input): with `maxKB = 0` both preview
operations fail with the invalid-length error and boolean `true`, but with
`maxKB = -1` — also `≤ 0` — they return `(true, nil)` with no error at all,
because the guard in the Go source tests `maxKB == 0` even though its own
error message demands `maxKB > 0`.  The negative limit makes
`io.LimitReader` yield immediate EOF, so the binary content `0x00 0x01 0x02
0x03` is never read and the vacuous default `true` is returned. -/
theorem spec_c2 :
    ReaderPreview ⟨[[0, 1, 2, 3]], none⟩ 0 = (true, some GoError.invalidLength) ∧
    FilePreview (OpenResult.success ⟨[[0, 1, 2, 3]], none⟩) 0 =
      (true, some GoError.invalidLength) ∧
    ReaderPreview ⟨[[0, 1, 2, 3]], none⟩ (-1) = (true, none) ∧
    FilePreview (OpenResult.success ⟨[[0, 1, 2, 3]], none⟩) (-1) = (true, none) := by
  refine ⟨rfl, rfl, ?_, ?_⟩ <;> decide

/-- C3 (amended): with `0 < maxKB`, `maxKB * 1024 < 2^63 =
9223372036854775808` — i.e. the byte cap does not overflow the 64-bit
machine `int` — and a stream
strictly longer than `maxKB * 1024` bytes, the preview classifies exactly
the first `maxKB * 1024` bytes — bytes and even the stream's final event
beyond the cut never affect the result; a fully admissible prefix
classifies `true`; and a cut falling strictly inside one code point's
encoding classifies `false`.  (Without the no-overflow bound the claim is
false of the program: see `spec_c3_counterexample`.) -/
theorem spec_c3 (s : GoStream) (maxKB : Int) (h1 : 0 < maxKB)
    (h3 : maxKB * 1024 < 9223372036854775808)
    (h2 : maxKB * 1024 < ((content s).length : Int)) :
    ReaderPreview s maxKB =
      (isBufferPlaintext ((content s).take (maxKB * 1024).toNat), none) ∧
    (∀ rs, IsUtf8 ((content s).take (maxKB * 1024).toNat) rs →
      (∀ r ∈ rs, runeOK r) → ReaderPreview s maxKB = (true, none)) ∧
    (∀ w ws c rest2, IsUtf8 w ws → ScalarValue c →
      content s = w ++ encodeUtf8 c ++ rest2 →
      (w.length : Int) < maxKB * 1024 →
      maxKB * 1024 < (w.length : Int) + ((encodeUtf8 c).length : Int) →
      ReaderPreview s maxKB = (false, none)) := by
  have hne : maxKB ≠ 0 := by omega
  have hw : wrap64 (maxKB * 1024) = maxKB * 1024 :=
    wrap64_eq_self _ (by omega) h3
  have h2f : maxKB * 1024 < (s.chunks.flatten.length : Int) := h2
  have hterm : (limitReader (maxKB * 1024) s).terminal = none := by
    unfold limitReader
    rw [limitAux_terminal]
    rw [if_neg (by omega)]
  have hcont : content (limitReader (maxKB * 1024) s) =
      (content s).take (maxKB * 1024).toNat := by
    unfold limitReader content
    rw [limitAux_content]
  have hmain : ReaderPreview s maxKB =
      (isBufferPlaintext ((content s).take (maxKB * 1024).toNat), none) := by
    simp only [ReaderPreview]
    rw [if_neg hne, hw, isPlaintextFromReader_eof _ hterm, hcont]
  refine ⟨hmain, ?_, ?_⟩
  · intro rs hrs hok
    rw [hmain]
    have hb : isBufferPlaintext ((content s).take (maxKB * 1024).toNat) = true := by
      unfold isBufferPlaintext
      rw [utf8Valid_of_isUtf8 _ _ hrs]
      simpa using (plLoop_spec _ _ hrs).mpr hok
    rw [hb]
  · intro w ws c rest2 hw hsc hcontent hwlen hclen
    rw [hmain]
    have hpref : (content s).take (maxKB * 1024).toNat =
        w ++ (encodeUtf8 c).take ((maxKB * 1024).toNat - w.length) := by
      rw [hcontent, List.append_assoc, List.take_append_eq_append_take,
        List.take_of_length_le (by omega : w.length ≤ (maxKB * 1024).toNat)]
      congr 1
      rw [List.take_append_eq_append_take,
        (by omega : (maxKB * 1024).toNat - w.length - (encodeUtf8 c).length = 0)]
      simp
    have hval : utf8Valid ((content s).take (maxKB * 1024).toNat) = false := by
      rw [hpref, utf8Valid_append_isUtf8 w ws hw]
      exact utf8Valid_take_encode c _ hsc (by omega) (by omega)
    have hb : isBufferPlaintext ((content s).take (maxKB * 1024).toNat) = false := by
      unfold isBufferPlaintext
      rw [hval]
      rfl
    rw [hb]

set_option maxRecDepth 100000 in
/-- Witness for C3: 1025 bytes of `A` previewed at 1 KB — only the first
1024 bytes are classified, and they are plaintext. -/
theorem spec_c3_witness :
    ReaderPreview ⟨[List.replicate 1025 65], none⟩ 1 = (true, none) := by
  have h := (spec_c3 ⟨[List.replicate 1025 65], none⟩ 1 (by decide)
    (by norm_num) (by decide)).1
  rw [h]
  decide

/-- C3 as originally stated — for every positive `maxKB` — is false of the
program: at `maxKB = 2^53 = 9007199254740992` the machine-`int` byte cap
`maxKB * 1024` wraps to `-2^63`, so the preview reads nothing and returns
`(true, nil)` even though the stream (`2^63 + 1` zero bytes) is longer
than the mathematical cap and its `maxKB * 1024`-byte prefix (all `0x00`)
is not plaintext. -/
theorem spec_c3_counterexample :
    (0 : Int) < 9007199254740992 ∧
    (9007199254740992 * 1024 : Int) <
      ((content ⟨[List.replicate 9223372036854775809 0], none⟩).length : Int) ∧
    ReaderPreview ⟨[List.replicate 9223372036854775809 0], none⟩ 9007199254740992 =
      (true, none) ∧
    isBufferPlaintext ((content ⟨[List.replicate 9223372036854775809 0], none⟩).take
      ((9007199254740992 * 1024 : Int)).toNat) = false := by
  have hc : content ⟨[List.replicate 9223372036854775809 0], none⟩ =
      List.replicate 9223372036854775809 0 := by
    show ([List.replicate 9223372036854775809 0] : List (List Nat)).flatten = _
    rw [List.flatten_cons, List.flatten_nil, List.append_nil]
  refine ⟨by decide, ?_, ?_, ?_⟩
  · rw [hc, List.length_replicate]
    omega
  · rfl
  · rw [hc]
    have htn : ((9007199254740992 * 1024 : Int)).toNat = 9223372036854775808 := by decide
    rw [htn, List.take_replicate,
      show min 9223372036854775808 9223372036854775809 = 9223372036854775808 by decide,
      show (9223372036854775808 : Nat) = 9223372036854775807 + 1 by decide,
      List.replicate_succ]
    exact isBufferPlaintext_zero_cons _ (utf8Valid_replicate_zero _)

/-- C4 (amended): a preview whose byte cap is at least the stream's
(cleanly delivered) length and does not overflow the 64-bit machine `int`
(`maxKB * 1024 < 2^63 = 9223372036854775808`) is the same
boolean-and-error outcome as unlimited classification.  (Without the no-overflow bound the claim is
false of the program: see `spec_c4_counterexample`.) -/
theorem spec_c4 (s : GoStream) (maxKB : Int) (h1 : 0 < maxKB)
    (h3 : maxKB * 1024 < 9223372036854775808) (hterm : s.terminal = none)
    (hlen : ((content s).length : Int) ≤ maxKB * 1024) :
    ReaderPreview s maxKB = Reader s := by
  have hne : maxKB ≠ 0 := by omega
  have hw : wrap64 (maxKB * 1024) = maxKB * 1024 :=
    wrap64_eq_self _ (by omega) h3
  have hlenf : ((s.chunks.flatten.length : Nat) : Int) ≤ maxKB * 1024 := hlen
  have ht : (limitReader (maxKB * 1024) s).terminal = none := by
    unfold limitReader
    rw [limitAux_terminal]
    split
    · exact hterm
    · rfl
  have hc : content (limitReader (maxKB * 1024) s) = content s := by
    unfold limitReader content
    rw [limitAux_content]
    exact List.take_of_length_le (by omega)
  simp only [ReaderPreview]
  rw [if_neg hne, hw]
  unfold Reader
  rw [isPlaintextFromReader_eof _ ht, isPlaintextFromReader_eof s hterm, hc]

/-- Witness for C4: the two-byte stream `Hi` previewed at 1 KB. -/
theorem spec_c4_witness :
    ReaderPreview ⟨[[72, 105]], none⟩ 1 = Reader ⟨[[72, 105]], none⟩ :=
  spec_c4 ⟨[[72, 105]], none⟩ 1 (by decide) (by norm_num) rfl (by decide)

/-- C4 as originally stated — for every positive `maxKB` with content no
longer than `maxKB * 1024` — is false of the program: at
`maxKB = 2^53 = 9007199254740992` the machine-`int` byte cap wraps
negative, so the preview of a 4-byte binary stream reads nothing and
returns `(true, nil)` while unlimited classification returns
`(false, nil)`. -/
theorem spec_c4_counterexample :
    (0 : Int) < 9007199254740992 ∧
    (⟨[[0, 1, 2, 3]], none⟩ : GoStream).terminal = none ∧
    ((content ⟨[[0, 1, 2, 3]], none⟩).length : Int) ≤ 9007199254740992 * 1024 ∧
    ReaderPreview ⟨[[0, 1, 2, 3]], none⟩ 9007199254740992 = (true, none) ∧
    Reader ⟨[[0, 1, 2, 3]], none⟩ = (false, none) := by
  refine ⟨by norm_num, rfl, by decide, rfl, by decide⟩

/-- C5: a stream whose final read fails with a non-EOF error makes the
accumulator — and hence `Reader`, `File`, and the preview operations
whenever the failure lies within the effective byte cap
`wrap64 (maxKB * 1024)` (the machine-`int` product; with an overflowed or
non-positive cap the preview performs no reads, so no read of it fails) —
return that error immediately with no meaningful verdict (boolean
`false`). -/
theorem spec_c5 (s : GoStream) (e : Nat) (maxKB : Int) (h : s.terminal = some e) :
    isPlaintextFromReader s = (false, some (GoError.ioErr e)) ∧
    Reader s = (false, some (GoError.ioErr e)) ∧
    File (OpenResult.success s) = (false, some (GoError.ioErr e)) ∧
    (maxKB ≠ 0 → ((content s).length : Int) < wrap64 (maxKB * 1024) →
      ReaderPreview s maxKB = (false, some (GoError.ioErr e)) ∧
      FilePreview (OpenResult.success s) maxKB = (false, some (GoError.ioErr e))) := by
  have hmain := isPlaintextFromReader_err s e h
  refine ⟨hmain, hmain, hmain, ?_⟩
  intro hne hlen
  have hlenf : ((s.chunks.flatten.length : Nat) : Int) < wrap64 (maxKB * 1024) := hlen
  have ht : (limitReader (wrap64 (maxKB * 1024)) s).terminal = some e := by
    unfold limitReader
    rw [limitAux_terminal, if_pos hlenf]
    exact h
  have hprev := isPlaintextFromReader_err _ e ht
  constructor
  · simp only [ReaderPreview]
    rw [if_neg hne]
    exact hprev
  · simp only [FilePreview]
    rw [if_neg hne]
    exact hprev

/-- Witness for C5: a one-chunk stream failing with error code 7. -/
theorem spec_c5_witness :
    Reader ⟨[[65]], some 7⟩ = (false, some (GoError.ioErr 7)) ∧
    ReaderPreview ⟨[[65]], some 7⟩ 1 = (false, some (GoError.ioErr 7)) :=
  ⟨(spec_c5 ⟨[[65]], some 7⟩ 7 1 rfl).2.1,
   ((spec_c5 ⟨[[65]], some 7⟩ 7 1 rfl).2.2.2 (by decide) (by decide)).1⟩

/-- C6: classification is a pure function of the collected bytes — a
cleanly ending stream classifies exactly as `Bytes` on its delivered
content, and two streams delivering the same bytes (however chunked)
classify identically. -/
theorem spec_c6 (s t : GoStream) (hs : s.terminal = none) (ht : t.terminal = none)
    (hc : content s = content t) :
    Reader s = Bytes (content s) ∧ Reader s = Reader t := by
  have h1 : Reader s = Bytes (content s) := by
    unfold Reader Bytes
    rw [isPlaintextFromReader_eof s hs]
  have h2 : Reader t = Bytes (content t) := by
    unfold Reader Bytes
    rw [isPlaintextFromReader_eof t ht]
  exact ⟨h1, by rw [h1, h2, hc]⟩

/-- Witness for C6: the bytes `hi` delivered in two chunks versus one. -/
theorem spec_c6_witness :
    Reader ⟨[[104], [105]], none⟩ = Bytes (content ⟨[[104], [105]], none⟩) ∧
    Reader ⟨[[104], [105]], none⟩ = Reader ⟨[[104, 105]], none⟩ :=
  spec_c6 ⟨[[104], [105]], none⟩ ⟨[[104, 105]], none⟩ rfl rfl (by decide)

/-- C7: `Bytes` is total and never fails — its error component is always
`nil`. -/
theorem spec_c7 (data : List Nat) : ∃ b : Bool, Bytes data = (b, none) :=
  ⟨isBufferPlaintext data, rfl⟩

/-- C9: whenever any of the operations returns an error other than the
invalid-length error, the accompanying boolean is exactly `false`. -/
theorem spec_c9 :
    (∀ s b e, Reader s = (b, some e) → e ≠ GoError.invalidLength → b = false) ∧
    (∀ r b e, File r = (b, some e) → e ≠ GoError.invalidLength → b = false) ∧
    (∀ s maxKB b e, ReaderPreview s maxKB = (b, some e) →
      e ≠ GoError.invalidLength → b = false) ∧
    (∀ r maxKB b e, FilePreview r maxKB = (b, some e) →
      e ≠ GoError.invalidLength → b = false) := by
  refine ⟨?_, ?_, ?_, ?_⟩
  · intro s b e heq _
    exact (ipfr_snd_some s b e heq).1
  · intro r b e heq _
    match r with
    | OpenResult.failure code =>
      simp only [File, Prod.mk.injEq] at heq
      exact heq.1.symm
    | OpenResult.success s =>
      exact (ipfr_snd_some s b e heq).1
  · intro s maxKB b e heq hne
    by_cases h0 : maxKB = 0
    · simp only [ReaderPreview, if_pos h0, Prod.mk.injEq, Option.some.injEq] at heq
      exact absurd heq.2.symm hne
    · simp only [ReaderPreview, if_neg h0] at heq
      exact (ipfr_snd_some _ b e heq).1
  · intro r maxKB b e heq hne
    match r with
    | OpenResult.failure code =>
      simp only [FilePreview, Prod.mk.injEq] at heq
      exact heq.1.symm
    | OpenResult.success s =>
      by_cases h0 : maxKB = 0
      · simp only [FilePreview, if_pos h0, Prod.mk.injEq, Option.some.injEq] at heq
        exact absurd heq.2.symm hne
      · simp only [FilePreview, if_neg h0] at heq
        exact (ipfr_snd_some _ b e heq).1

/-- Witness for C9: a stream that fails with error code 3 before any data. -/
theorem spec_c9_witness : (Reader ⟨[], some 3⟩).1 = false :=
  spec_c9.1 ⟨[], some 3⟩ (Reader ⟨[], some 3⟩).1 (GoError.ioErr 3) rfl (by decide)

/-- C10: `FilePreview` validates `maxKB` only after a successful open, so a
failed open yields the open error with boolean `false` for every `maxKB`,
the invalid `maxKB = 0` included. -/
theorem spec_c10 (e : Nat) (maxKB : Int) :
    FilePreview (OpenResult.failure e) maxKB = (false, some (GoError.ioErr e)) ∧
    FilePreview (OpenResult.failure e) 0 = (false, some (GoError.ioErr e)) :=
  ⟨rfl, rfl⟩

end IsPlaintextFile
